import Mathlib

/-!
# Primality check by trial division (`text_2.c`)

A shallow embedding of the two functions of `text_2.c`, `isPrime` and `main`, and the
properties of them that the specification states.

Modelling conventions.

* `int` is the 32-bit two's complement integer type.  Values are mathematical integers
  (`Int`); an `int` operation whose mathematical result leaves `[INT_MIN, INT_MAX]`, or
  that divides by zero, is undefined behaviour in C and is reported as `Outcome.undefined`.
* `sqrt` is the `double` function of `<math.h>`.  The conversion `int → double` is exact
  (every 32-bit integer is a binary64 number) and `sqrt` is the IEEE-754 square root,
  correctly rounded to nearest.  Its value is computed here with integers only, as a
  significand and a binary scale, so that every definition can be evaluated.
* The `for` loop is a recursion on a fuel counter; running out of fuel is reported as
  `Outcome.timeout`.  The counter of the loop takes each odd value of `int` at most once,
  so no execution has more than `2^30` iterations and `isPrime` supplies that much fuel.
* Besides its outcome a run records, in order, the divisors `i` at which the loop
  evaluated `n % i`; `isPrimeOps` lists every remainder and sum a call evaluates.
* `isPrimeIn` is `isPrime` with its two variables in memory, each call entered with the
  memory the call before it left; `int i;` has no initialiser, so `i` starts with what that
  memory holds.
* `isPrimeWith` is the routine with another guard in the place of `i <= sqrt(n)`: the guard
  `i * i <= n` of the specification, with the product exact or wrapping in 32 bits.
-/

namespace Text2

/-! ## Machine integers -/

/-- Least value of `int`. -/
def INT_MIN : Int := -2147483648

/-- Greatest value of `int`. -/
def INT_MAX : Int := 2147483647

/-- The values of the type `int`. -/
def InRange (n : Int) : Prop := INT_MIN ≤ n ∧ n ≤ INT_MAX

instance (n : Int) : Decidable (InRange n) := by
  unfold InRange; exact inferInstance

/-- How the evaluation of a C expression or function ends: with a value, in undefined
behaviour, or (an artefact of the model) with the fuel of a loop used up. -/
inductive Outcome (α : Type) where
  | ret (v : α)
  | undefined
  | timeout
  deriving DecidableEq

/-- Signed addition `a + b` of two `int`s: overflow is undefined. -/
def addInt (a b : Int) : Outcome Int :=
  if InRange (a + b) then .ret (a + b) else .undefined

/-- Signed remainder `a % b` of two `int`s (truncated division): undefined for `b = 0`
and for `INT_MIN % -1`. -/
def remInt (a b : Int) : Outcome Int :=
  if b = 0 then .undefined
  else if a = INT_MIN ∧ b = -1 then .undefined
  else .ret (Int.tmod a b)

/-! ## The `double` square root -/

/-- Digit-by-digit integer square root: `k` binary digits remain to be decided below the
partial root `r`. -/
def isqrtAux (n : Nat) : Nat → Nat → Nat
  | 0, r => r
  | k + 1, r => if (r + 2 ^ k) * (r + 2 ^ k) ≤ n then isqrtAux n k (r + 2 ^ k) else isqrtAux n k r

/-- Integer square root `⌊√n⌋` of a number below `2^128`. -/
def isqrt (n : Nat) : Nat := isqrtAux n 64 0

/-- Greatest `e ≤ k` with `4^e ≤ n` (and `0` when there is none). -/
def ilog4 (n : Nat) : Nat → Nat
  | 0 => 0
  | k + 1 => if 4 ^ (k + 1) ≤ n then k + 1 else ilog4 n k

/-- The binary64 number `sqrt((double) n)` of a positive 32-bit `n`, as a pair `(m, s)`
that stands for `m / 2^s`.  With `2^e ≤ √n < 2^(e+1)` the binary64 numbers of that binade
are the multiples of `2^(e-52)`, so `s = 52 - e` and `m` is the integer nearest to
`√n · 2^s = √(n · 4^s)`.  That integer is `q = ⌊√(n · 4^s)⌋` when `n · 4^s ≤ q² + q` and `q + 1`
otherwise; a tie would need `n · 4^s = q² + q + 1/4` and cannot occur. -/
def sqrtDouble (n : Nat) : Nat × Nat :=
  let s := 52 - ilog4 n 26
  let q := isqrt (n * 4 ^ s)
  (if n * 4 ^ s ≤ q * q + q then q else q + 1, s)

/-- The loop guard `i <= sqrt(n)`: both `int`s are converted to `double` (exactly) and the
comparison is made there.  `sqrt` of a negative number is a NaN, which compares false, and
`sqrt(0)` is `0`. -/
def leSqrt (i n : Int) : Bool :=
  if n < 0 then false
  else if n = 0 then decide (i ≤ 0)
  else decide (i * 2 ^ (sqrtDouble n.toNat).2 ≤ ((sqrtDouble n.toNat).1 : Int))

/-! ## `isPrime` -/

/-- A run of `isPrime`: how it ends, and the divisors `i` at which the loop evaluated
`n % i`, in the order of evaluation. -/
structure Run where
  out : Outcome Int
  tested : List Int
  deriving DecidableEq

/-- The loop `for (...; i <= sqrt(n); i += 2) { if (n % i == 0) return 0; }` entered with
the counter at `i`, followed by the `return 1` after it. -/
def loop (n : Int) : Nat → Int → Run
  | 0, _ => ⟨.timeout, []⟩
  | fuel + 1, i =>
    if leSqrt i n then
      match remInt n i with
      | .ret r =>
        if r = 0 then ⟨.ret 0, [i]⟩
        else
          match addInt i 2 with
          | .ret j =>
            match loop n fuel j with
            | ⟨out, tested⟩ => ⟨out, i :: tested⟩
          | .undefined => ⟨.undefined, [i]⟩
          | .timeout => ⟨.timeout, [i]⟩
      | .undefined => ⟨.undefined, [i]⟩
      | .timeout => ⟨.timeout, [i]⟩
    else ⟨.ret 1, []⟩

/-- The body of `isPrime` with `fuel` iterations allowed to its loop. -/
def isPrimeFuel (fuel : Nat) (n : Int) : Run :=
  if n < 2 then ⟨.ret 0, []⟩
  else if n = 2 then ⟨.ret 1, []⟩
  else
    match remInt n 2 with
    | .ret r => if r = 0 then ⟨.ret 0, []⟩ else loop n fuel 3
    | .undefined => ⟨.undefined, []⟩
    | .timeout => ⟨.timeout, []⟩

/-- Fuel that no execution of the loop can use up: its counter runs through odd `int`s. -/
def loopFuel : Nat := 2 ^ 30

/-- The function `int isPrime(int n)`. -/
def isPrime (n : Int) : Run := isPrimeFuel loopFuel n

/-! ## `main` -/

/-- The text of the first `printf` of `main`. -/
def prompt : String := "请输入一个整数: "

/-- The conversion `%d` of `printf`: the decimal digits, after a `-` for a negative number. -/
def fmtD (v : Int) : String := toString v

/-- The function `main`, given what `scanf("%d", &num)` stored in `num` (`none` when it
stored nothing and `num` is read uninitialised): the text written to standard output and
the exit status. -/
def main (scanned : Option Int) : Outcome (String × Int) :=
  match scanned with
  | none => .undefined
  | some num =>
    match (isPrime num).out with
    | .ret v =>
      if v ≠ 0 then .ret (prompt ++ (fmtD num ++ " 是素数\n"), 0)
      else .ret (prompt ++ (fmtD num ++ " 不是素数\n"), 0)
    | .undefined => .undefined
    | .timeout => .timeout

/-! ## What the specification calls a prime -/

/-- A prime number as the glossary of the specification has it: an integer greater than
`1` whose only positive divisors are `1` and itself. -/
def IsPrimeNumber (n : Int) : Prop :=
  1 < n ∧ ∀ d : Int, 0 < d → d ∣ n → d = 1 ∨ d = n

/-! ## Sequences of calls -/

/-- A sequence of calls of `isPrime`, one for each argument of the list in turn, with the
run of each. -/
def callSeq (args : List Int) : List Run := args.map isPrime

/-! ## The memory a call works in -/

/-- The memory of the two automatic variables of `isPrime`, the parameter `n` and the
counter `i`.  The source declares no object of static storage duration and `isPrime`
reaches no other memory, so these two cells, which a call finds as whatever ran before
left them, are all that one call could hand to the next. -/
structure Frame where
  n : Int
  i : Int
  deriving DecidableEq

/-- The loop of `isPrime` with its variables in memory: each use of `n` and `i` reads the
cell and `i += 2` writes it.  The result is the run and the memory the loop leaves. -/
def loopIn : Nat → Frame → Run × Frame
  | 0, σ => (⟨.timeout, []⟩, σ)
  | fuel + 1, σ =>
    if leSqrt σ.i σ.n then
      match remInt σ.n σ.i with
      | .ret r =>
        if r = 0 then (⟨.ret 0, [σ.i]⟩, σ)
        else
          match addInt σ.i 2 with
          | .ret j =>
            match loopIn fuel ⟨σ.n, j⟩ with
            | (⟨out, tested⟩, τ) => (⟨out, σ.i :: tested⟩, τ)
          | .undefined => (⟨.undefined, [σ.i]⟩, σ)
          | .timeout => (⟨.timeout, [σ.i]⟩, σ)
      | .undefined => (⟨.undefined, [σ.i]⟩, σ)
      | .timeout => (⟨.timeout, [σ.i]⟩, σ)
    else (⟨.ret 1, []⟩, σ)

/-- A call `isPrime(arg)` entered with the memory `σ`.  The argument is stored in `n`; the
declaration `int i;` has no initialiser, so `i` holds what the memory held until the loop
starts with `i = 3`.  The result is the run and the memory the call leaves. -/
def isPrimeIn (σ : Frame) (arg : Int) : Run × Frame :=
  if arg < 2 then (⟨.ret 0, []⟩, ⟨arg, σ.i⟩)
  else if arg = 2 then (⟨.ret 1, []⟩, ⟨arg, σ.i⟩)
  else
    match remInt arg 2 with
    | .ret r => if r = 0 then (⟨.ret 0, []⟩, ⟨arg, σ.i⟩) else loopIn loopFuel ⟨arg, 3⟩
    | .undefined => (⟨.undefined, []⟩, ⟨arg, σ.i⟩)
    | .timeout => (⟨.timeout, []⟩, ⟨arg, σ.i⟩)

/-- A sequence of calls of `isPrime` from the memory `σ`, each call entered with the memory
the one before it left: the runs of the calls, in order. -/
def runCalls : Frame → List Int → List Run
  | _, [] => []
  | σ, arg :: rest => (isPrimeIn σ arg).1 :: runCalls (isPrimeIn σ arg).2 rest

/-! ## The routine with another loop guard -/

/-- The loop of `isPrime` with `guard i n` in the place of `i <= sqrt(n)`, and nothing else
changed. -/
def loopWith (guard : Int → Int → Bool) (n : Int) : Nat → Int → Run
  | 0, _ => ⟨.timeout, []⟩
  | fuel + 1, i =>
    if guard i n then
      match remInt n i with
      | .ret r =>
        if r = 0 then ⟨.ret 0, [i]⟩
        else
          match addInt i 2 with
          | .ret j =>
            match loopWith guard n fuel j with
            | ⟨out, tested⟩ => ⟨out, i :: tested⟩
          | .undefined => ⟨.undefined, [i]⟩
          | .timeout => ⟨.timeout, [i]⟩
      | .undefined => ⟨.undefined, [i]⟩
      | .timeout => ⟨.timeout, [i]⟩
    else ⟨.ret 1, []⟩

/-- The routine `isPrime` with `guard i n` in the place of `i <= sqrt(n)`. -/
def isPrimeWith (guard : Int → Int → Bool) (n : Int) : Run :=
  if n < 2 then ⟨.ret 0, []⟩
  else if n = 2 then ⟨.ret 1, []⟩
  else
    match remInt n 2 with
    | .ret r => if r = 0 then ⟨.ret 0, []⟩ else loopWith guard n loopFuel 3
    | .undefined => ⟨.undefined, []⟩
    | .timeout => ⟨.timeout, []⟩

/-- The guard `i * i <= n` with the product computed exactly, without overflow. -/
def guardExact (i n : Int) : Bool := decide (i * i ≤ n)

/-- The `int` that a 32-bit two's complement register holds for the integer `x`: the value
congruent to `x` modulo `2^32` in `[-2^31, 2^31)`. -/
def wrap32 (x : Int) : Int := (x + 2147483648) % 4294967296 - 2147483648

/-- The guard `i * i <= n` with the product computed in `int`, wrapping modulo `2^32`. -/
def guardWrap (i n : Int) : Bool := decide (wrap32 (i * i) ≤ n)

/-- The routine `isPrime` with the guard `i * i <= n`, the product being exact. -/
def isPrimeExact (n : Int) : Run := isPrimeWith guardExact n

/-- The routine `isPrime` with the guard `i * i <= n`, the product wrapping in `int`. -/
def isPrimeWrap (n : Int) : Run := isPrimeWith guardWrap n

/-- None of the `k` numbers `d, d + 2, d + 4, ...` divides `n`. -/
def noOddDivisor (n : Nat) : Nat → Nat → Bool
  | 0, _ => true
  | k + 1, d => if n % d = 0 then false else noOddDivisor n k (d + 2)

/-! ## The arithmetic operations of a run -/

/-- An operation of `isPrime` on `int`s that C leaves undefined for some operands: a
remainder `a % b` or a sum `a + b`. -/
inductive Op where
  | rem (a b : Int)
  | add (a b : Int)
  deriving DecidableEq

/-- The operands for which the operation is defined: a remainder needs a divisor other than
`0` (and not `INT_MIN % -1`), a sum must stay in `int`. -/
def Op.safe : Op → Prop
  | .rem a b => b ≠ 0 ∧ ¬ (a = INT_MIN ∧ b = -1)
  | .add a b => InRange (a + b)

/-- The operations the loop of `isPrime` evaluates from the counter `i` on, in order: the
remainder `n % i` of each iteration and the update `i += 2` that follows it when the
iteration does not return. -/
def loopOps (n : Int) : Nat → Int → List Op
  | 0, _ => []
  | fuel + 1, i =>
    if leSqrt i n then
      match remInt n i with
      | .ret r =>
        if r = 0 then [.rem n i]
        else
          match addInt i 2 with
          | .ret j => .rem n i :: .add i 2 :: loopOps n fuel j
          | .undefined => [.rem n i, .add i 2]
          | .timeout => [.rem n i, .add i 2]
      | .undefined => [.rem n i]
      | .timeout => [.rem n i]
    else []

/-- The operations a call `isPrime(n)` evaluates, in order: `n % 2` once the two first
tests have failed, then those of the loop. -/
def isPrimeOps (n : Int) : List Op :=
  if n < 2 then []
  else if n = 2 then []
  else
    match remInt n 2 with
    | .ret r => if r = 0 then [.rem n 2] else .rem n 2 :: loopOps n loopFuel 3
    | .undefined => [.rem n 2]
    | .timeout => [.rem n 2]

/-! ## The integer square root -/

theorem isqrtAux_spec (n : Nat) : ∀ (k r : Nat), r * r ≤ n → n < (r + 2 ^ k) * (r + 2 ^ k) →
    isqrtAux n k r * isqrtAux n k r ≤ n ∧ n < (isqrtAux n k r + 1) * (isqrtAux n k r + 1) := by
  intro k
  induction k with
  | zero => intro r h1 h2; simpa [isqrtAux] using And.intro h1 h2
  | succ k ih =>
    intro r h1 h2
    unfold isqrtAux
    split
    · next h =>
      apply ih _ h
      have : r + 2 ^ k + 2 ^ k = r + 2 ^ (k + 1) := by rw [pow_succ]; omega
      rw [this]; exact h2
    · next h => exact ih _ h1 (by omega)

theorem isqrt_spec (n : Nat) (h : n < 2 ^ 128) :
    isqrt n * isqrt n ≤ n ∧ n < (isqrt n + 1) * (isqrt n + 1) := by
  unfold isqrt
  apply isqrtAux_spec
  · simp
  · calc n < 2 ^ 128 := h
      _ = (0 + 2 ^ 64) * (0 + 2 ^ 64) := by norm_num

theorem ilog4_le_of_lt (n j : Nat) (h : n < 4 ^ (j + 1)) : ∀ k, ilog4 n k ≤ j := by
  intro k
  induction k with
  | zero => simp [ilog4]
  | succ k ih =>
    unfold ilog4
    split
    · next hk =>
      have : 4 ^ (k + 1) < 4 ^ (j + 1) := lt_of_le_of_lt hk h
      have := (Nat.pow_lt_pow_iff_right (by norm_num : 1 < 4)).mp this
      omega
    · exact ih

theorem ilog4_le (n : Nat) : ∀ k, ilog4 n k ≤ k := by
  intro k
  induction k with
  | zero => simp [ilog4]
  | succ k ih =>
    unfold ilog4
    split
    · exact le_rfl
    · omega

theorem lt_pow_ilog4 (n : Nat) : ∀ k, n < 4 ^ (k + 1) → n < 4 ^ (ilog4 n k + 1) := by
  intro k
  induction k with
  | zero => intro h; simpa [ilog4] using h
  | succ k ih =>
    intro h
    unfold ilog4
    split
    · exact h
    · next hk => exact ih (by omega)

/-- The digit-by-digit root is the floor of the square root. -/
theorem isqrt_eq_sqrt (n : Nat) (h : n < 2 ^ 128) : isqrt n = Nat.sqrt n :=
  Nat.eq_sqrt.2 (isqrt_spec n h)

/-! ## The loop guard is `i * i ≤ n` -/

theorem round_le_iff (P n a q : Nat) (hP : 2 ^ 37 ≤ P) (hn : n < 2 ^ 31)
    (hq1 : q * q ≤ n * (P * P)) (hq2 : n * (P * P) < (q + 1) * (q + 1)) :
    a * P ≤ (if n * (P * P) ≤ q * q + q then q else q + 1) ↔ a * a ≤ n := by
  have hPpos : 0 < P := lt_of_lt_of_le (by norm_num) hP
  have hsq : (a * P) * (a * P) = (a * a) * (P * P) := by ring
  constructor
  · intro h
    by_contra hcon
    have hna : n + 1 ≤ a * a := by omega
    have hbig : (n + 1) * (P * P) ≤ (a * P) * (a * P) := by
      rw [hsq]; exact Nat.mul_le_mul_right _ hna
    have hPP : 0 < P * P := Nat.mul_pos hPpos hPpos
    have hlt : n * (P * P) < (a * P) * (a * P) := by
      have : n * (P * P) < (n + 1) * (P * P) := by
        rw [Nat.add_mul]; omega
      omega
    have hqA : q < a * P := by
      by_contra hc
      have hc2 : a * P ≤ q := by omega
      have := Nat.mul_self_le_mul_self hc2
      omega
    split at h
    · omega
    · next hround =>
      have hA : a * P = q + 1 := by omega
      rw [hA] at hbig
      have e1 : (q + 1) * (q + 1) = q * q + q + q + 1 := by ring
      have e2 : (n + 1) * (P * P) = n * (P * P) + P * P := by ring
      have hqPP : P * P ≤ q := by omega
      have haP : P < a := by
        by_contra hc
        have hc2 : a ≤ P := by omega
        have := Nat.mul_le_mul_right P hc2
        omega
      have hq16 : q < 2 ^ 16 * P := by
        by_contra hc
        have hc2 : 2 ^ 16 * P ≤ q := by omega
        have h3 := Nat.mul_self_le_mul_self hc2
        have h4 : 2 ^ 16 * P * (2 ^ 16 * P) = 2 ^ 32 * (P * P) := by ring
        have h5 : n * (P * P) < 2 ^ 31 * (P * P) := Nat.mul_lt_mul_of_pos_right hn hPP
        have h6 : 2 ^ 31 * (P * P) ≤ 2 ^ 32 * (P * P) := Nat.mul_le_mul_right _ (by norm_num)
        omega
      have ha16 : a ≤ 2 ^ 16 := by
        by_contra hc
        have hc2 : 2 ^ 16 + 1 ≤ a := by omega
        have := Nat.mul_le_mul_right P hc2
        have e3 : (2 ^ 16 + 1) * P = 2 ^ 16 * P + P := by ring
        omega
      omega
  · intro h
    have h1 : (a * P) * (a * P) ≤ n * (P * P) := by
      rw [hsq]; exact Nat.mul_le_mul_right _ h
    have h2 : a * P < q + 1 := by
      by_contra hc
      have hc2 : q + 1 ≤ a * P := by omega
      have := Nat.mul_self_le_mul_self hc2
      omega
    split <;> omega

theorem sqrtDouble_le_iff (n a : Nat) (hn : n < 2 ^ 31) :
    a * 2 ^ (sqrtDouble n).2 ≤ (sqrtDouble n).1 ↔ a * a ≤ n := by
  have he : ilog4 n 26 ≤ 15 :=
    ilog4_le_of_lt n 15 (lt_of_lt_of_le hn (by norm_num)) 26
  have hlt : n < 4 ^ (ilog4 n 26 + 1) :=
    lt_pow_ilog4 n 26 (lt_of_lt_of_le hn (by norm_num))
  obtain ⟨s, hs⟩ : ∃ s, s = 52 - ilog4 n 26 := ⟨_, rfl⟩
  have hP : (2 : Nat) ^ 37 ≤ 2 ^ s := Nat.pow_le_pow_right (by norm_num) (by omega)
  have h4 : (4 : Nat) ^ s = 2 ^ s * 2 ^ s := by
    rw [← Nat.mul_pow]
  have hN : n * 4 ^ s < 2 ^ 128 := by
    have h1 : n * 4 ^ s < 4 ^ (ilog4 n 26 + 1) * 4 ^ s :=
      Nat.mul_lt_mul_of_pos_right hlt (by positivity)
    have h2 : 4 ^ (ilog4 n 26 + 1) * 4 ^ s = 4 ^ 53 := by
      rw [← Nat.pow_add]; congr 1; omega
    have h3 : (4 : Nat) ^ 53 < 2 ^ 128 := by norm_num
    omega
  have hq := isqrt_spec _ hN
  simp only [sqrtDouble, ← hs]
  rw [h4] at hq ⊢
  exact round_le_iff (2 ^ s) n a _ hP hn hq.1 hq.2

theorem leSqrt_iff (i n : Int) (hi : 0 ≤ i) (h1 : 1 ≤ n) (h2 : n ≤ INT_MAX) :
    leSqrt i n = true ↔ i * i ≤ n := by
  have hn : n.toNat < 2 ^ 31 := by
    unfold INT_MAX at h2; omega
  have key := sqrtDouble_le_iff n.toNat i.toNat hn
  have e1 : ((i.toNat : Nat) : Int) = i := Int.toNat_of_nonneg hi
  have e2 : ((n.toNat : Nat) : Int) = n := Int.toNat_of_nonneg (by omega)
  unfold leSqrt
  rw [if_neg (by omega), if_neg (by omega), decide_eq_true_iff]
  calc i * 2 ^ (sqrtDouble n.toNat).2 ≤ ((sqrtDouble n.toNat).1 : Int)
      ↔ ((i.toNat * 2 ^ (sqrtDouble n.toNat).2 : Nat) : Int) ≤ ((sqrtDouble n.toNat).1 : Int) := by
        rw [Nat.cast_mul, e1]; simp
    _ ↔ i.toNat * 2 ^ (sqrtDouble n.toNat).2 ≤ (sqrtDouble n.toNat).1 := Int.ofNat_le
    _ ↔ i.toNat * i.toNat ≤ n.toNat := key
    _ ↔ ((i.toNat * i.toNat : Nat) : Int) ≤ ((n.toNat : Nat) : Int) := Int.ofNat_le.symm
    _ ↔ i * i ≤ n := by rw [Nat.cast_mul, e1, e2]

/-! ## The loop -/

theorem le_46340_of_sq_le (i n : Int) (hi : 0 ≤ i) (h : i * i ≤ n) (hn : n ≤ INT_MAX) :
    i ≤ 46340 := by
  unfold INT_MAX at hn
  by_contra hc
  have h1 : (46341 : Int) ≤ i := by omega
  have h2 : (46341 : Int) * 46341 ≤ i * i := Int.mul_le_mul h1 h1 (by norm_num) hi
  omega

theorem sq_lt_of_le (i d n : Int) (hi : 0 ≤ i) (hid : i ≤ d) (h : n < i * i) : n < d * d := by
  have : i * i ≤ d * d := Int.mul_le_mul hid hid hi (by omega)
  omega

theorem loop_step (n : Int) (fuel : Nat) (i : Int) (hn : n ≤ INT_MAX) (hi : 3 ≤ i)
    (h : i * i ≤ n) :
    loop n (fuel + 1) i =
      if Int.tmod n i = 0 then ⟨.ret 0, [i]⟩
      else ⟨(loop n fuel (i + 2)).out, i :: (loop n fuel (i + 2)).tested⟩ := by
  have hi0 : (0 : Int) ≤ i := by omega
  have h9 : (3 : Int) * 3 ≤ i * i := Int.mul_le_mul hi hi (by norm_num) hi0
  have hg : leSqrt i n = true := (leSqrt_iff i n hi0 (by omega) hn).2 h
  have hle := le_46340_of_sq_le i n hi0 h hn
  have hrem : remInt n i = .ret (Int.tmod n i) := by
    unfold remInt
    rw [if_neg (by omega), if_neg (by omega)]
  have hadd : addInt i 2 = .ret (i + 2) := by
    unfold addInt
    rw [if_pos]
    unfold InRange INT_MIN INT_MAX
    omega
  rw [loop]
  simp only [hg, hrem, hadd, if_true]

theorem loop_stop (n : Int) (fuel : Nat) (i : Int) (hn1 : 1 ≤ n) (hn : n ≤ INT_MAX) (hi : 0 ≤ i)
    (h : n < i * i) : loop n (fuel + 1) i = ⟨.ret 1, []⟩ := by
  have hg : ¬ leSqrt i n = true := fun hc => by
    have := (leSqrt_iff i n hi hn1 hn).1 hc
    omega
  rw [loop]
  simp only [hg]
  rfl

/-- Outcome of the loop from counter `i`: `0` when one of `i, i + 2, i + 4, ...` with square
at most `n` divides `n`, and `1` otherwise. -/
theorem loop_out (n : Int) (hn3 : 3 ≤ n) (hn : n ≤ INT_MAX) :
    ∀ (fuel : Nat) (i : Int), 3 ≤ i → i ≤ 46342 → 46344 - i ≤ 2 * (fuel : Int) →
      ((loop n fuel i).out = .ret 0 ∧ ∃ d, i ≤ d ∧ (d - i) % 2 = 0 ∧ d * d ≤ n ∧ d ∣ n) ∨
      ((loop n fuel i).out = .ret 1 ∧ ¬ ∃ d, i ≤ d ∧ (d - i) % 2 = 0 ∧ d * d ≤ n ∧ d ∣ n) := by
  intro fuel
  induction fuel with
  | zero => intro i h3 h4 h5; omega
  | succ fuel ih =>
    intro i h3 h4 h5
    by_cases hsq : i * i ≤ n
    · rw [loop_step n fuel i hn h3 hsq]
      have hle := le_46340_of_sq_le i n (by omega) hsq hn
      by_cases hdiv : Int.tmod n i = 0
      · rw [if_pos hdiv]
        exact Or.inl ⟨rfl, i, le_rfl, by simp, hsq, Int.dvd_of_tmod_eq_zero hdiv⟩
      · rw [if_neg hdiv]
        have hnd : ¬ i ∣ n := fun hc => hdiv (Int.tmod_eq_zero_of_dvd hc)
        rcases ih (i + 2) (by omega) (by omega) (by push_cast at h5 ⊢; omega) with
          ⟨ho, d, hd1, hd2, hd3, hd4⟩ | ⟨ho, hno⟩
        · exact Or.inl ⟨ho, d, by omega, by omega, hd3, hd4⟩
        · refine Or.inr ⟨ho, ?_⟩
          rintro ⟨d, hd1, hd2, hd3, hd4⟩
          by_cases hdi : d = i
          · subst hdi; exact hnd hd4
          · exact hno ⟨d, by omega, by omega, hd3, hd4⟩
    · rw [loop_stop n fuel i (by omega) hn (by omega) (by omega)]
      refine Or.inr ⟨rfl, ?_⟩
      rintro ⟨d, hd1, _, hd3, _⟩
      have := sq_lt_of_le i d n (by omega) hd1 (by omega)
      omega

/-- The divisors the loop tests from counter `i`: the numbers `d` among `i, i + 2, i + 4, ...`
with square at most `n` such that none of the earlier ones divides `n`. -/
theorem loop_tested (n : Int) (hn3 : 3 ≤ n) (hn : n ≤ INT_MAX) :
    ∀ (fuel : Nat) (i : Int), 3 ≤ i → i ≤ 46342 → 46344 - i ≤ 2 * (fuel : Int) →
      ∀ d, d ∈ (loop n fuel i).tested ↔
        (i ≤ d ∧ (d - i) % 2 = 0 ∧ d * d ≤ n ∧
          ∀ c, i ≤ c → c < d → (c - i) % 2 = 0 → ¬ c ∣ n) := by
  intro fuel
  induction fuel with
  | zero => intro i h3 h4 h5; omega
  | succ fuel ih =>
    intro i h3 h4 h5 d
    by_cases hsq : i * i ≤ n
    · rw [loop_step n fuel i hn h3 hsq]
      have hle := le_46340_of_sq_le i n (by omega) hsq hn
      by_cases hdiv : Int.tmod n i = 0
      · rw [if_pos hdiv]
        have hd : i ∣ n := Int.dvd_of_tmod_eq_zero hdiv
        simp only [List.mem_singleton]
        constructor
        · rintro rfl
          exact ⟨le_rfl, by simp, hsq, fun c h1 h2 => by omega⟩
        · rintro ⟨h1, h2, _, h6⟩
          by_contra hne
          exact h6 i le_rfl (by omega) (by simp) hd
      · rw [if_neg hdiv]
        have hnd : ¬ i ∣ n := fun hc => hdiv (Int.tmod_eq_zero_of_dvd hc)
        have IH := ih (i + 2) (by omega) (by omega) (by push_cast at h5 ⊢; omega) d
        simp only [List.mem_cons, IH]
        constructor
        · rintro (rfl | ⟨h1, h2, h6, h7⟩)
          · exact ⟨le_rfl, by simp, hsq, fun c h1 h2 => by omega⟩
          · refine ⟨by omega, by omega, h6, fun c hc1 hc2 hc3 => ?_⟩
            by_cases hci : c = i
            · subst hci; exact hnd
            · exact h7 c (by omega) hc2 (by omega)
        · rintro ⟨h1, h2, h6, h7⟩
          by_cases hdi : d = i
          · exact Or.inl hdi
          · exact Or.inr ⟨by omega, by omega, h6,
              fun c hc1 hc2 hc3 => h7 c (by omega) hc2 (by omega)⟩
    · rw [loop_stop n fuel i (by omega) hn (by omega) (by omega)]
      simp only [List.not_mem_nil, false_iff]
      rintro ⟨h1, _, h6, _⟩
      have := sq_lt_of_le i d n (by omega) h1 (by omega)
      omega

/-- More fuel than the loop needs does not change its run. -/
theorem loop_fuel (n : Int) (hn3 : 3 ≤ n) (hn : n ≤ INT_MAX) :
    ∀ (f g : Nat) (i : Int), 3 ≤ i → i ≤ 46342 → 46344 - i ≤ 2 * (f : Int) →
      46344 - i ≤ 2 * (g : Int) → loop n f i = loop n g i := by
  intro f
  induction f with
  | zero => intro g i h3 h4 h5; omega
  | succ f ih =>
    intro g i h3 h4 h5 h6
    cases g with
    | zero => omega
    | succ g =>
      by_cases hsq : i * i ≤ n
      · have hle := le_46340_of_sq_le i n (by omega) hsq hn
        rw [loop_step n f i hn h3 hsq, loop_step n g i hn h3 hsq,
          ih g (i + 2) (by omega) (by omega) (by push_cast at h5 ⊢; omega)
            (by push_cast at h6 ⊢; omega)]
      · rw [loop_stop n f i (by omega) hn (by omega) (by omega),
          loop_stop n g i (by omega) hn (by omega) (by omega)]

/-- The fuel `isPrime` gives its loop is never used up, whatever the guard does: the counter
goes up by `2` at each iteration and an overflow of it ends the run. -/
theorem loop_never_timeout (n : Int) :
    ∀ (fuel : Nat) (i : Int), i ≤ INT_MAX → INT_MAX - i + 3 ≤ 2 * (fuel : Int) →
      (loop n fuel i).out ≠ .timeout := by
  intro fuel
  induction fuel with
  | zero =>
    intro i hi h
    omega
  | succ fuel ih =>
    intro i hi h
    rw [loop]
    split
    · split
      · split
        · simp
        · by_cases hr : InRange (i + 2)
          · have hadd : addInt i 2 = .ret (i + 2) := by unfold addInt; rw [if_pos hr]
            simp only [hadd]
            apply ih _ hr.2
            have := hr.2
            push_cast at h
            omega
          · have hadd : addInt i 2 = .undefined := by unfold addInt; rw [if_neg hr]
            simp [hadd]
      · simp
      · next hrem =>
        exfalso
        unfold remInt at hrem
        split at hrem
        · cases hrem
        · split at hrem <;> cases hrem
    · simp

/-! ## Primes and the three paths of `isPrime` -/

theorem isPrimeNumber_iff_natPrime (n : Int) : IsPrimeNumber n ↔ Nat.Prime n.toNat := by
  by_cases hn : n ≤ 1
  · constructor
    · intro h; have := h.1; omega
    · intro h; have := h.two_le; omega
  · obtain ⟨p, rfl⟩ : ∃ p : Nat, n = (p : Int) := ⟨n.toNat, by omega⟩
    rw [Int.toNat_ofNat, Nat.prime_def]
    constructor
    · rintro ⟨h1, h2⟩
      refine ⟨by omega, fun m hm => ?_⟩
      have hm0 : 0 < m := Nat.pos_of_dvd_of_pos hm (by omega)
      rcases h2 (m : Int) (by omega) (Int.ofNat_dvd.2 hm) with h | h
      · left; exact_mod_cast h
      · right; exact_mod_cast h
    · rintro ⟨h1, h2⟩
      refine ⟨by omega, fun d hd hdvd => ?_⟩
      obtain ⟨m, rfl⟩ : ∃ m : Nat, d = (m : Int) := ⟨d.toNat, by omega⟩
      rcases h2 m (Int.ofNat_dvd.1 hdvd) with h | h
      · left; exact_mod_cast h
      · right; exact_mod_cast h

theorem odd_of_dvd_odd (d n : Int) (hn : n % 2 = 1) (hd : d ∣ n) : d % 2 = 1 := by
  by_contra hc
  have h2 : (2 : Int) ∣ d := Int.dvd_of_emod_eq_zero (by omega)
  have := Int.emod_eq_zero_of_dvd (dvd_trans h2 hd)
  omega

/-- An odd `n ≥ 3` is prime exactly when no odd `d ≥ 3` with `d² ≤ n` divides it. -/
theorem odd_prime_iff (n : Int) (hn3 : 3 ≤ n) (hodd : n % 2 = 1) :
    IsPrimeNumber n ↔ ¬ ∃ d, 3 ≤ d ∧ (d - 3) % 2 = 0 ∧ d * d ≤ n ∧ d ∣ n := by
  constructor
  · rintro ⟨_, h⟩ ⟨d, hd1, _, hd3, hd4⟩
    rcases h d (by omega) hd4 with h1 | h1
    · omega
    · subst h1
      have : (3 : Int) * d ≤ d * d := Int.mul_le_mul_of_nonneg_right hd1 (by omega)
      omega
  · intro hno
    refine ⟨by omega, fun d hd hdvd => ?_⟩
    obtain ⟨k, hk⟩ := hdvd
    have hk0 : 0 < k := by
      by_contra hc
      have : d * k ≤ 0 := Int.mul_nonpos_of_nonneg_of_nonpos (by omega) (by omega)
      omega
    have hdodd := odd_of_dvd_odd d n hodd ⟨k, hk⟩
    have hkodd := odd_of_dvd_odd k n hodd ⟨d, by rw [hk, Int.mul_comm]⟩
    by_cases hdk : d ≤ k
    · by_cases hd1 : d = 1
      · exact Or.inl hd1
      · exfalso
        apply hno
        refine ⟨d, by omega, by omega, ?_, ⟨k, hk⟩⟩
        rw [hk]
        exact Int.mul_le_mul_of_nonneg_left hdk (by omega)
    · by_cases hk1 : k = 1
      · right; rw [hk, hk1, Int.mul_one]
      · exfalso
        apply hno
        refine ⟨k, by omega, by omega, ?_, ⟨d, by rw [hk, Int.mul_comm]⟩⟩
        rw [hk]
        exact Int.mul_le_mul_of_nonneg_right (by omega) (by omega)

theorem isPrimeFuel_lt_two (fuel : Nat) (n : Int) (h : n < 2) :
    isPrimeFuel fuel n = ⟨.ret 0, []⟩ := by
  unfold isPrimeFuel
  rw [if_pos h]

theorem remInt_two (n : Int) (h : 0 ≤ n) : remInt n 2 = .ret (n % 2) := by
  unfold remInt
  rw [if_neg (by norm_num), if_neg (by omega), Int.tmod_eq_emod h (by norm_num)]

theorem isPrimeFuel_even (fuel : Nat) (n : Int) (h : 2 < n) (he : n % 2 = 0) :
    isPrimeFuel fuel n = ⟨.ret 0, []⟩ := by
  unfold isPrimeFuel
  rw [if_neg (by omega), if_neg (by omega), remInt_two n (by omega)]
  simp only [he, if_true]

theorem isPrimeFuel_odd (fuel : Nat) (n : Int) (h : 2 < n) (ho : n % 2 = 1) :
    isPrimeFuel fuel n = loop n fuel 3 := by
  unfold isPrimeFuel
  rw [if_neg (by omega), if_neg (by omega), remInt_two n (by omega)]
  simp only [ho]
  rfl

theorem loopFuel_enough : (46344 : Int) - 3 ≤ 2 * (loopFuel : Int) := by
  unfold loopFuel; norm_num

theorem not_prime_of_lt_two (n : Int) (h : n < 2) : ¬ IsPrimeNumber n := by
  intro hp; have := hp.1; omega

theorem not_prime_of_even (n : Int) (h : 2 < n) (he : n % 2 = 0) : ¬ IsPrimeNumber n := by
  intro hp
  rcases hp.2 2 (by norm_num) (Int.dvd_of_emod_eq_zero he) with h1 | h1 <;> omega

theorem prime_two : IsPrimeNumber 2 := by
  rw [isPrimeNumber_iff_natPrime]; exact Nat.prime_two

/-- The outcome of `isPrime` on an `int`: `1` on the primes and `0` elsewhere. -/
theorem isPrime_out (n : Int) (hn : n ≤ INT_MAX) :
    ((isPrime n).out = .ret 1 ∧ IsPrimeNumber n) ∨
    ((isPrime n).out = .ret 0 ∧ ¬ IsPrimeNumber n) := by
  unfold isPrime
  by_cases h2 : n < 2
  · rw [isPrimeFuel_lt_two _ n h2]
    exact Or.inr ⟨rfl, not_prime_of_lt_two n h2⟩
  · by_cases h22 : n = 2
    · subst h22
      exact Or.inl ⟨by decide, prime_two⟩
    · by_cases he : n % 2 = 0
      · rw [isPrimeFuel_even _ n (by omega) he]
        exact Or.inr ⟨rfl, not_prime_of_even n (by omega) he⟩
      · rw [isPrimeFuel_odd _ n (by omega) (by omega)]
        rcases loop_out n (by omega) hn loopFuel 3 le_rfl (by norm_num) loopFuel_enough with
          ⟨ho, hex⟩ | ⟨ho, hno⟩
        · exact Or.inr ⟨ho, fun hp => (odd_prime_iff n (by omega) (by omega)).1 hp hex⟩
        · exact Or.inl ⟨ho, (odd_prime_iff n (by omega) (by omega)).2 hno⟩

/-- The three ways through `isPrime`: return `0` before the loop, return `1` before the
loop (`n = 2`), or enter the loop (odd `n ≥ 3`). -/
theorem isPrimeFuel_cases (n : Int) :
    (∀ fuel, isPrimeFuel fuel n = ⟨.ret 0, []⟩) ∨ (∀ fuel, isPrimeFuel fuel n = ⟨.ret 1, []⟩) ∨
    (3 ≤ n ∧ n % 2 = 1 ∧ ∀ fuel, isPrimeFuel fuel n = loop n fuel 3) := by
  by_cases h2 : n < 2
  · exact Or.inl fun fuel => isPrimeFuel_lt_two fuel n h2
  · by_cases h22 : n = 2
    · subst h22
      refine Or.inr (Or.inl fun fuel => ?_)
      unfold isPrimeFuel
      rw [if_neg (by norm_num), if_pos rfl]
    · by_cases he : n % 2 = 0
      · exact Or.inl fun fuel => isPrimeFuel_even fuel n (by omega) he
      · exact Or.inr (Or.inr ⟨by omega, by omega,
          fun fuel => isPrimeFuel_odd fuel n (by omega) (by omega)⟩)

/-! ## Order of the tested divisors, `⌊√n⌋`, decimal digits -/

/-- The divisors the loop tests come in strictly increasing order. -/
theorem loop_increasing (n : Int) (hn3 : 3 ≤ n) (hn : n ≤ INT_MAX) :
    ∀ (fuel : Nat) (i : Int), 3 ≤ i → i ≤ 46342 → 46344 - i ≤ 2 * (fuel : Int) →
      (loop n fuel i).tested.Pairwise (fun a b => a < b) := by
  intro fuel
  induction fuel with
  | zero => intro i h3 h4 h5; omega
  | succ fuel ih =>
    intro i h3 h4 h5
    by_cases hsq : i * i ≤ n
    · rw [loop_step n fuel i hn h3 hsq]
      have hle := le_46340_of_sq_le i n (by omega) hsq hn
      by_cases hdiv : Int.tmod n i = 0
      · rw [if_pos hdiv]; simp
      · rw [if_neg hdiv]
        have hfuel : 46344 - (i + 2) ≤ 2 * (fuel : Int) := by push_cast at h5 ⊢; omega
        refine List.Pairwise.cons (fun d hd => ?_) (ih (i + 2) (by omega) (by omega) hfuel)
        have := (loop_tested n hn3 hn fuel (i + 2) (by omega) (by omega) hfuel d).1 hd
        omega
    · rw [loop_stop n fuel i (by omega) hn (by omega) (by omega)]
      simp

theorem le_sqrt_iff (i n : Int) (hi : 0 ≤ i) (hn : 0 ≤ n) :
    i ≤ (Nat.sqrt n.toNat : Int) ↔ i * i ≤ n := by
  obtain ⟨a, rfl⟩ : ∃ a : Nat, i = (a : Int) := ⟨i.toNat, by omega⟩
  obtain ⟨m, rfl⟩ : ∃ m : Nat, n = (m : Int) := ⟨n.toNat, by omega⟩
  rw [Int.toNat_ofNat, Int.ofNat_le, Nat.le_sqrt]
  norm_cast

theorem digitChar_ne_newline : ∀ k, k < 10 → Nat.digitChar k ≠ '\n' := by decide

theorem toDigitsCore_ne_newline : ∀ (fuel n : Nat) (ds : List Char),
    (∀ c ∈ ds, c ≠ '\n') → ∀ c ∈ Nat.toDigitsCore 10 fuel n ds, c ≠ '\n' := by
  intro fuel
  induction fuel with
  | zero => intro n ds h; simpa [Nat.toDigitsCore] using h
  | succ fuel ih =>
    intro n ds h
    have hcons : ∀ c ∈ Nat.digitChar (n % 10) :: ds, c ≠ '\n' := by
      intro c hc
      rcases List.mem_cons.1 hc with rfl | hc
      · exact digitChar_ne_newline _ (Nat.mod_lt _ (by norm_num))
      · exact h c hc
    unfold Nat.toDigitsCore
    by_cases h0 : n / 10 = 0
    · simpa [h0] using hcons
    · simpa [h0] using ih (n / 10) _ hcons

theorem repr_ne_newline (n : Nat) : ∀ c ∈ (Nat.repr n).data, c ≠ '\n' := by
  unfold Nat.repr Nat.toDigits
  exact toDigitsCore_ne_newline _ _ _ (by simp)

/-- The decimal rendering of an integer has no line break in it. -/
theorem fmtD_ne_newline (v : Int) : ∀ c ∈ (fmtD v).data, c ≠ '\n' := by
  unfold fmtD
  cases v with
  | ofNat m => exact repr_ne_newline m
  | negSucc m =>
    intro c hc
    have : c ∈ ("-" ++ Nat.repr (m + 1)).data := hc
    rw [String.data_append] at this
    rcases List.mem_append.1 this with h | h
    · have : c = '-' := by simpa using h
      subst this; decide
    · exact repr_ne_newline _ c h

/-! ## Calls in memory -/

/-- The loop run in memory has the run of the loop on the values of the two cells. -/
theorem loopIn_run : ∀ (fuel : Nat) (σ : Frame), (loopIn fuel σ).1 = loop σ.n fuel σ.i := by
  intro fuel
  induction fuel with
  | zero => intro σ; rfl
  | succ fuel ih =>
    intro σ
    rw [loopIn, loop]
    by_cases hg : leSqrt σ.i σ.n = true
    · simp only [hg, if_true]
      cases hrem : remInt σ.n σ.i with
      | ret r =>
        by_cases hr : r = 0
        · simp only [hr, if_true]
        · simp only [hr, if_false]
          cases hadd : addInt σ.i 2 with
          | ret j =>
            have h := ih ⟨σ.n, j⟩
            simp only at h ⊢
            rw [← h]
          | undefined => rfl
          | timeout => rfl
      | undefined => rfl
      | timeout => rfl
    · simp only [hg]
      rfl

/-- A call has the same run whatever the memory it is entered with. -/
theorem isPrimeIn_run (σ : Frame) (n : Int) : (isPrimeIn σ n).1 = isPrime n := by
  unfold isPrimeIn isPrime isPrimeFuel
  by_cases h2 : n < 2
  · simp only [h2, if_true]
  · by_cases h22 : n = 2
    · subst h22
      rfl
    · simp only [h2, h22, if_false]
      cases hrem : remInt n 2 with
      | ret r =>
        by_cases hr : r = 0
        · simp only [hr, if_true]
        · simp only [hr, if_false]
          exact loopIn_run loopFuel ⟨n, 3⟩
      | undefined => rfl
      | timeout => rfl

/-- A call leaves its argument and the last value of its counter in memory, and the next
call is entered with them: after `isPrime(25)` the cell of `i` holds `5`, and `isPrime(8)`,
which never assigns `i`, leaves it there. -/
theorem isPrimeIn_memory :
    (isPrimeIn ⟨0, 0⟩ 25).2 = ⟨25, 5⟩ ∧ (isPrimeIn ⟨25, 5⟩ 8).2 = ⟨8, 5⟩ := by
  constructor <;> decide

/-- The runs of a sequence of calls are those of the calls taken alone. -/
theorem runCalls_eq_callSeq : ∀ (args : List Int) (σ : Frame), runCalls σ args = callSeq args := by
  intro args
  induction args with
  | nil => intro σ; rfl
  | cons a rest ih =>
    intro σ
    rw [runCalls, isPrimeIn_run, ih]
    rfl

/-! ## The claims of the specification -/

/-- C1: for every 32-bit signed integer `n`, `isPrime(n)` returns `1` if `n` is a prime
number (greater than `1`, with `1` and `n` as only positive divisors) and returns `0`
otherwise; in particular its result is nonzero if and only if `n` is prime. -/
theorem isPrime_correct (n : Int) (h : InRange n) :
    (IsPrimeNumber n → (isPrime n).out = .ret 1) ∧
    (¬ IsPrimeNumber n → (isPrime n).out = .ret 0) ∧
    ((∃ v, (isPrime n).out = .ret v ∧ v ≠ 0) ↔ IsPrimeNumber n) := by
  rcases isPrime_out n h.2 with ⟨ho, hp⟩ | ⟨ho, hp⟩
  · refine ⟨fun _ => ho, fun hc => absurd hp hc, fun _ => hp, fun _ => ⟨1, ho, by norm_num⟩⟩
  · refine ⟨fun hc => absurd hc hp, fun _ => ho, ?_, fun hc => absurd hc hp⟩
    rintro ⟨v, hv, hv0⟩
    rw [ho] at hv
    injection hv with hv
    exact absurd hv.symm hv0

theorem isPrime_correct_witness :
    InRange 2147483647 ∧
    ((IsPrimeNumber 2147483647 → (isPrime 2147483647).out = .ret 1) ∧
     (¬ IsPrimeNumber 2147483647 → (isPrime 2147483647).out = .ret 0) ∧
     ((∃ v, (isPrime 2147483647).out = .ret v ∧ v ≠ 0) ↔ IsPrimeNumber 2147483647)) :=
  ⟨by decide, isPrime_correct 2147483647 (by decide)⟩

/-- C2: for every integer `n < 2` (every negative `n`, `0` and `1`, down to the most
negative `int`), `isPrime(n)` returns `0`. -/
theorem isPrime_lt_two (n : Int) (h : n < 2) : (isPrime n).out = .ret 0 := by
  unfold isPrime
  rw [isPrimeFuel_lt_two _ n h]

theorem isPrime_lt_two_witness : INT_MIN < 2 ∧ (isPrime INT_MIN).out = .ret 0 :=
  ⟨by decide, isPrime_lt_two INT_MIN (by decide)⟩

/-- C3: for every even `n > 2`, `isPrime(n)` returns `0` at the even check, before the loop
does anything: the result is the same whatever fuel the loop is given, none included, and
no divisor is tested; `n = 4` is an instance. -/
theorem isPrime_even (n : Int) (h : 2 < n) (he : n % 2 = 0) :
    (isPrime n).out = .ret 0 ∧ (isPrime n).tested = [] ∧
    (∀ fuel, isPrimeFuel fuel n = ⟨.ret 0, []⟩) ∧
    isPrime 4 = ⟨.ret 0, []⟩ ∧ isPrimeFuel 0 4 = ⟨.ret 0, []⟩ := by
  have hf : ∀ fuel, isPrimeFuel fuel n = ⟨.ret 0, []⟩ := fun fuel => isPrimeFuel_even fuel n h he
  refine ⟨?_, ?_, hf, by decide, by decide⟩
  · unfold isPrime; rw [hf]
  · unfold isPrime; rw [hf]

theorem isPrime_even_witness :
    (2 : Int) < 2147483646 ∧ (2147483646 : Int) % 2 = 0 ∧
    ((isPrime 2147483646).out = .ret 0 ∧ (isPrime 2147483646).tested = [] ∧
    (∀ fuel, isPrimeFuel fuel 2147483646 = ⟨.ret 0, []⟩) ∧
    isPrime 4 = ⟨.ret 0, []⟩ ∧ isPrimeFuel 0 4 = ⟨.ret 0, []⟩) :=
  ⟨by decide, by decide, isPrime_even 2147483646 (by decide) (by decide)⟩

/-- C4: `isPrime(2)` returns `1` and `isPrime(3)` returns `1`. -/
theorem isPrime_two_three : (isPrime 2).out = .ret 1 ∧ (isPrime 3).out = .ret 1 := by
  constructor <;> decide

/-- C5: on the square-root boundary `isPrime(9)` and `isPrime(25)` return `0`, the divisor
`⌊√n⌋` (`3`, respectively `5`) being the last one tested, and `isPrime(23)` returns `1`. -/
theorem isPrime_sqrt_boundary :
    isPrime 9 = ⟨.ret 0, [3]⟩ ∧ isPrime 25 = ⟨.ret 0, [3, 5]⟩ ∧ isPrime 23 = ⟨.ret 1, [3]⟩ := by
  refine ⟨?_, ?_, ?_⟩ <;> decide

/-- C6: for every `n` with `0 ≤ n < 10000`, `isPrime(n)` returns `1` exactly when `n` is in
the reference set of primes (`Nat.Prime`), and `0` for every other `n` of that range. -/
theorem isPrime_below_10000 (n : Nat) (h : n < 10000) :
    ((isPrime (n : Int)).out = .ret 1 ↔ Nat.Prime n) ∧
    ((isPrime (n : Int)).out = .ret 0 ↔ ¬ Nat.Prime n) := by
  have hr : (n : Int) ≤ INT_MAX := by unfold INT_MAX; omega
  have hp := isPrimeNumber_iff_natPrime (n : Int)
  rw [Int.toNat_ofNat] at hp
  rcases isPrime_out (n : Int) hr with ⟨ho, hq⟩ | ⟨ho, hq⟩
  · rw [ho]
    exact ⟨⟨fun _ => hp.1 hq, fun _ => rfl⟩,
      ⟨fun hc => absurd hc (by decide), fun hc => absurd (hp.1 hq) hc⟩⟩
  · rw [ho]
    exact ⟨⟨fun hc => absurd hc (by decide), fun hc => absurd (hp.2 hc) hq⟩,
      ⟨fun _ hc => hq (hp.2 hc), fun _ => rfl⟩⟩

theorem isPrime_below_10000_witness :
    9973 < 10000 ∧
    (((isPrime ((9973 : Nat) : Int)).out = .ret 1 ↔ Nat.Prime 9973) ∧
    ((isPrime ((9973 : Nat) : Int)).out = .ret 0 ↔ ¬ Nat.Prime 9973)) :=
  ⟨by decide, isPrime_below_10000 9973 (by decide)⟩

/-- C7: `isPrime` is total on the 32-bit signed integers: the call ends with a result, `0`
or `1`, never in undefined behaviour and never out of fuel, the loop needing at most
`23171` iterations whatever `n`; the counter of the loop strictly increases. -/
theorem isPrime_total (n : Int) (h : InRange n) :
    (∃ v, (v = 0 ∨ v = 1) ∧ (isPrime n).out = .ret v) ∧
    (∀ fuel, 23171 ≤ fuel → isPrimeFuel fuel n = isPrime n) ∧
    (isPrime n).tested.Pairwise (fun a b => a < b) := by
  refine ⟨?_, ?_, ?_⟩
  · rcases isPrime_out n h.2 with ⟨ho, _⟩ | ⟨ho, _⟩
    · exact ⟨1, Or.inr rfl, ho⟩
    · exact ⟨0, Or.inl rfl, ho⟩
  · intro fuel hfuel
    rcases isPrimeFuel_cases n with hc | hc | ⟨h3, _, hc⟩
    · unfold isPrime; rw [hc, hc]
    · unfold isPrime; rw [hc, hc]
    · unfold isPrime
      rw [hc, hc]
      exact loop_fuel n h3 h.2 fuel loopFuel 3 le_rfl (by norm_num) (by omega) loopFuel_enough
  · rcases isPrimeFuel_cases n with hc | hc | ⟨h3, _, hc⟩
    · unfold isPrime; rw [hc]; exact List.Pairwise.nil
    · unfold isPrime; rw [hc]; exact List.Pairwise.nil
    · unfold isPrime
      rw [hc]
      exact loop_increasing n h3 h.2 loopFuel 3 le_rfl (by norm_num) loopFuel_enough

theorem isPrime_total_witness :
    InRange 2147483647 ∧
    ((∃ v, (v = 0 ∨ v = 1) ∧ (isPrime 2147483647).out = .ret v) ∧
    (∀ fuel, 23171 ≤ fuel → isPrimeFuel fuel 2147483647 = isPrime 2147483647) ∧
    (isPrime 2147483647).tested.Pairwise (fun a b => a < b)) :=
  ⟨by decide, isPrime_total 2147483647 (by decide)⟩

/-- C8: `isPrime` is deterministic and has no hidden state.  A call `isPrime(n)` has the
same run whatever the memory it is entered with, the run that `n` alone determines; so in
any sequence of calls, each entered with the memory the one before left, two calls with the
same argument, wherever they stand among the others, have the same result, and the whole
sequence of results does not depend on the memory at the start. -/
theorem isPrime_no_hidden_state (σ τ : Frame) (args : List Int) (j k : Nat) (n : Int)
    (hj : args[j]? = some n) (hk : args[k]? = some n) :
    (isPrimeIn σ n).1 = (isPrimeIn τ n).1 ∧ (isPrimeIn σ n).1 = isPrime n ∧
    (runCalls σ args)[j]? = some (isPrime n) ∧ (runCalls σ args)[k]? = some (isPrime n) ∧
    (runCalls σ args)[j]? = (runCalls σ args)[k]? ∧
    runCalls σ args = runCalls τ args := by
  have hseq : ∀ i : Nat, args[i]? = some n → (runCalls σ args)[i]? = some (isPrime n) := by
    intro i hi
    rw [runCalls_eq_callSeq]
    unfold callSeq
    simp [List.getElem?_map, hi]
  refine ⟨?_, isPrimeIn_run σ n, hseq j hj, hseq k hk, ?_, ?_⟩
  · rw [isPrimeIn_run, isPrimeIn_run]
  · rw [hseq j hj, hseq k hk]
  · rw [runCalls_eq_callSeq, runCalls_eq_callSeq]

theorem isPrime_no_hidden_state_witness :
    ([25, 8, 25, 9] : List Int)[0]? = some 25 ∧ ([25, 8, 25, 9] : List Int)[2]? = some 25 ∧
    ((isPrimeIn ⟨0, 0⟩ 25).1 = (isPrimeIn ⟨9, 3⟩ 25).1 ∧
     (isPrimeIn ⟨0, 0⟩ 25).1 = isPrime 25 ∧
     (runCalls ⟨0, 0⟩ [25, 8, 25, 9])[0]? = some (isPrime 25) ∧
     (runCalls ⟨0, 0⟩ [25, 8, 25, 9])[2]? = some (isPrime 25) ∧
     (runCalls ⟨0, 0⟩ [25, 8, 25, 9])[0]? = (runCalls ⟨0, 0⟩ [25, 8, 25, 9])[2]? ∧
     runCalls ⟨0, 0⟩ [25, 8, 25, 9] = runCalls ⟨9, 3⟩ [25, 8, 25, 9]) :=
  ⟨by decide, by decide,
    isPrime_no_hidden_state ⟨0, 0⟩ ⟨9, 3⟩ [25, 8, 25, 9] 0 2 25 (by decide) (by decide)⟩

/-- C9: for every `int` `num` read from standard input, `main` prints after the prompt
exactly one line, the decimal rendering of `num` followed by `" 是素数"` when `num` is prime
and by `" 不是素数"` otherwise, and returns `0`; so `7` is reported prime and `8`, `1` and
`-5` are reported not prime. -/
theorem main_output (num : Int) (h : InRange num) :
    (∃ line : String, (∀ c ∈ line.data, c ≠ '\n') ∧
      main (some num) = .ret (prompt ++ (line ++ "\n"), 0) ∧
      (IsPrimeNumber num → line = fmtD num ++ " 是素数") ∧
      (¬ IsPrimeNumber num → line = fmtD num ++ " 不是素数")) ∧
    (IsPrimeNumber num → main (some num) = .ret (prompt ++ (fmtD num ++ " 是素数\n"), 0)) ∧
    (¬ IsPrimeNumber num →
      main (some num) = .ret (prompt ++ (fmtD num ++ " 不是素数\n"), 0)) ∧
    main (some 7) = .ret ("请输入一个整数: 7 是素数\n", 0) ∧
    main (some 8) = .ret ("请输入一个整数: 8 不是素数\n", 0) ∧
    main (some 1) = .ret ("请输入一个整数: 1 不是素数\n", 0) ∧
    main (some (-5)) = .ret ("请输入一个整数: -5 不是素数\n", 0) := by
  have hline : ∀ t : String, (∀ c ∈ t.data, c ≠ '\n') →
      ∀ c ∈ (fmtD num ++ t).data, c ≠ '\n' := by
    intro t ht c hc
    rw [String.data_append] at hc
    rcases List.mem_append.1 hc with hc | hc
    · exact fmtD_ne_newline num c hc
    · exact ht c hc
  have e1 : fmtD num ++ " 是素数\n" = (fmtD num ++ " 是素数") ++ "\n" := by
    rw [String.append_assoc]; rfl
  have e2 : fmtD num ++ " 不是素数\n" = (fmtD num ++ " 不是素数") ++ "\n" := by
    rw [String.append_assoc]; rfl
  rcases isPrime_out num h.2 with ⟨ho, hp⟩ | ⟨ho, hp⟩
  · have hm : main (some num) = .ret (prompt ++ (fmtD num ++ " 是素数\n"), 0) := by
      simp only [main, ho]; rfl
    refine ⟨⟨fmtD num ++ " 是素数", hline _ (by decide), ?_, fun _ => rfl,
      fun hc => absurd hp hc⟩, fun _ => hm, fun hc => absurd hp hc, ?_, ?_, ?_, ?_⟩
    · rw [hm, e1]
    all_goals decide
  · have hm : main (some num) = .ret (prompt ++ (fmtD num ++ " 不是素数\n"), 0) := by
      simp only [main, ho]; rfl
    refine ⟨⟨fmtD num ++ " 不是素数", hline _ (by decide), ?_, fun hc => absurd hc hp,
      fun _ => rfl⟩, fun hc => absurd hc hp, fun _ => hm, ?_, ?_, ?_, ?_⟩
    · rw [hm, e2]
    all_goals decide

theorem main_output_witness :
    InRange (-5) ∧ main (some (-5)) = .ret (prompt ++ (fmtD (-5) ++ " 不是素数\n"), 0) :=
  ⟨by decide, (main_output (-5) (by decide)).2.2.1 (not_prime_of_lt_two (-5) (by decide))⟩

/-- C10, as stated, fails at `n = 45`: `5` is an odd candidate with `3 ≤ 5 ≤ ⌊√45⌋ = 6`, but
the loop returns at `3`, which divides `45`, and never tests `5`, so the divisors tested
are not exactly the odd candidates up to `⌊√n⌋`. -/
theorem isPrime_45_stops_at_three :
    isPrime 45 = ⟨.ret 0, [3]⟩ ∧ Nat.sqrt 45 = 6 ∧
    (5 : Int) ≤ (Nat.sqrt (45 : Int).toNat : Int) ∧ (5 : Int) ∉ (isPrime 45).tested ∧
    ¬ (∀ d : Int, d ∈ (isPrime 45).tested ↔
      (3 ≤ d ∧ d % 2 = 1 ∧ d ≤ (Nat.sqrt (45 : Int).toNat : Int))) := by
  have hrun : isPrime 45 = ⟨.ret 0, [3]⟩ := by decide
  have hsqrt : Nat.sqrt 45 = 6 := (Nat.eq_sqrt.2 ⟨by norm_num, by norm_num⟩).symm
  have hcand : (5 : Int) ≤ (Nat.sqrt (45 : Int).toNat : Int) :=
    (le_sqrt_iff 5 45 (by norm_num) (by norm_num)).2 (by norm_num)
  have hnot : (5 : Int) ∉ (isPrime 45).tested := by
    rw [hrun]; decide
  exact ⟨hrun, hsqrt, hcand, hnot,
    fun hall => hnot ((hall 5).2 ⟨by norm_num, by norm_num, hcand⟩)⟩

/-- C10, amended: for every odd `int` `n ≥ 3` the loop of `isPrime` tests the odd candidates
`3, 5, 7, ...` in increasing order up to and including the first one that divides `n`, and
up to and including `⌊√n⌋`, all of them, when none divides `n`; so `isPrime(n)` returns `0`
if and only if some odd `i` with `3 ≤ i ≤ ⌊√n⌋` has `n % i == 0`, and returns `1` when
there is none. -/
theorem isPrime_trial_division (n : Int) (h3 : 3 ≤ n) (hodd : n % 2 = 1) (hmax : n ≤ INT_MAX) :
    ((isPrime n).out = .ret 0 ↔
      ∃ i, 3 ≤ i ∧ i % 2 = 1 ∧ i ≤ (Nat.sqrt n.toNat : Int) ∧ Int.tmod n i = 0) ∧
    ((¬ ∃ i, 3 ≤ i ∧ i % 2 = 1 ∧ i ≤ (Nat.sqrt n.toNat : Int) ∧ Int.tmod n i = 0) →
      (isPrime n).out = .ret 1 ∧
      ∀ d, d ∈ (isPrime n).tested ↔ (3 ≤ d ∧ d % 2 = 1 ∧ d ≤ (Nat.sqrt n.toNat : Int))) ∧
    (∀ d, d ∈ (isPrime n).tested ↔
      (3 ≤ d ∧ d % 2 = 1 ∧ d ≤ (Nat.sqrt n.toNat : Int) ∧
        ∀ c, 3 ≤ c → c < d → c % 2 = 1 → Int.tmod n c ≠ 0)) ∧
    (isPrime n).tested.Pairwise (fun a b => a < b) := by
  have hrun : isPrime n = loop n loopFuel 3 := isPrimeFuel_odd loopFuel n (by omega) hodd
  have hex : (∃ d, (3 : Int) ≤ d ∧ (d - 3) % 2 = 0 ∧ d * d ≤ n ∧ d ∣ n) ↔
      ∃ i, 3 ≤ i ∧ i % 2 = 1 ∧ i ≤ (Nat.sqrt n.toNat : Int) ∧ Int.tmod n i = 0 := by
    constructor
    · rintro ⟨d, h1, h2, h4, h5⟩
      exact ⟨d, h1, by omega, (le_sqrt_iff d n (by omega) (by omega)).2 h4,
        Int.tmod_eq_zero_of_dvd h5⟩
    · rintro ⟨d, h1, h2, h4, h5⟩
      exact ⟨d, h1, by omega, (le_sqrt_iff d n (by omega) (by omega)).1 h4,
        Int.dvd_of_tmod_eq_zero h5⟩
  have hmem : ∀ d, d ∈ (isPrime n).tested ↔
      (3 ≤ d ∧ d % 2 = 1 ∧ d ≤ (Nat.sqrt n.toNat : Int) ∧
        ∀ c, 3 ≤ c → c < d → c % 2 = 1 → Int.tmod n c ≠ 0) := by
    intro d
    rw [hrun, loop_tested n h3 hmax loopFuel 3 le_rfl (by norm_num) loopFuel_enough d]
    constructor
    · rintro ⟨h1, h2, h4, h5⟩
      exact ⟨h1, by omega, (le_sqrt_iff d n (by omega) (by omega)).2 h4,
        fun c hc1 hc2 hc3 hc4 => h5 c hc1 hc2 (by omega) (Int.dvd_of_tmod_eq_zero hc4)⟩
    · rintro ⟨h1, h2, h4, h5⟩
      exact ⟨h1, by omega, (le_sqrt_iff d n (by omega) (by omega)).1 h4,
        fun c hc1 hc2 hc3 hc4 => h5 c hc1 hc2 (by omega) (Int.tmod_eq_zero_of_dvd hc4)⟩
  have hout := loop_out n h3 hmax loopFuel 3 le_rfl (by norm_num) loopFuel_enough
  rw [← hrun, hex] at hout
  refine ⟨?_, ?_, hmem, ?_⟩
  · rcases hout with ⟨ho, he⟩ | ⟨ho, he⟩
    · exact ⟨fun _ => he, fun _ => ho⟩
    · rw [ho]
      exact ⟨fun hc => absurd hc (by decide), fun hc => absurd hc he⟩
  · intro hno
    rcases hout with ⟨_, he⟩ | ⟨ho, _⟩
    · exact absurd he hno
    · refine ⟨ho, fun d => ?_⟩
      rw [hmem d]
      constructor
      · rintro ⟨h1, h2, h4, _⟩
        exact ⟨h1, h2, h4⟩
      · rintro ⟨h1, h2, h4⟩
        refine ⟨h1, h2, h4, fun c hc1 hc2 hc3 hc4 => hno ⟨c, hc1, hc3, by omega, hc4⟩⟩
  · rw [hrun]
    exact loop_increasing n h3 hmax loopFuel 3 le_rfl (by norm_num) loopFuel_enough

theorem isPrime_trial_division_witness :
    (3 : Int) ≤ 45 ∧ (45 : Int) % 2 = 1 ∧ 45 ≤ INT_MAX ∧
    ((isPrime 45).out = .ret 0 ↔
      ∃ i, 3 ≤ i ∧ i % 2 = 1 ∧ i ≤ (Nat.sqrt (45 : Int).toNat : Int) ∧ Int.tmod 45 i = 0) :=
  ⟨by decide, by decide, by decide,
    (isPrime_trial_division 45 (by decide) (by decide) (by decide)).1⟩

/-! ## The routine with another guard -/

theorem loop_eq_loopWith (n : Int) : ∀ (fuel : Nat) (i : Int),
    loop n fuel i = loopWith leSqrt n fuel i := by
  intro fuel
  induction fuel with
  | zero => intro i; rfl
  | succ fuel ih =>
    intro i
    rw [loop, loopWith]
    simp only [ih]

theorem isPrime_eq_isPrimeWith (n : Int) : isPrime n = isPrimeWith leSqrt n := by
  unfold isPrime isPrimeFuel isPrimeWith
  simp only [loop_eq_loopWith]

/-- Two guards that agree from the counter `3` on give the same loop. -/
theorem loopWith_congr (g g' : Int → Int → Bool) (n : Int)
    (h : ∀ i, 3 ≤ i → g i n = g' i n) :
    ∀ (fuel : Nat) (i : Int), 3 ≤ i → loopWith g n fuel i = loopWith g' n fuel i := by
  intro fuel
  induction fuel with
  | zero => intro i _; rfl
  | succ fuel ih =>
    intro i hi
    rw [loopWith, loopWith, h i hi]
    by_cases hr : InRange (i + 2)
    · simp only [addInt, if_pos hr, ih (i + 2) (by omega)]
    · simp only [addInt, if_neg hr]

theorem loopWith_step (g : Int → Int → Bool) (n : Int) (fuel : Nat) (i : Int)
    (hg : g i n = true) (hi : 3 ≤ i) (hr : i + 2 ≤ INT_MAX) :
    loopWith g n (fuel + 1) i =
      if Int.tmod n i = 0 then ⟨.ret 0, [i]⟩
      else ⟨(loopWith g n fuel (i + 2)).out, i :: (loopWith g n fuel (i + 2)).tested⟩ := by
  have hrem : remInt n i = .ret (Int.tmod n i) := by
    unfold remInt
    rw [if_neg (by omega), if_neg (by omega)]
  have hadd : addInt i 2 = .ret (i + 2) := by
    unfold addInt
    rw [if_pos]
    unfold InRange INT_MIN
    exact ⟨by omega, hr⟩
  rw [loopWith]
  simp only [hg, hrem, hadd, if_true]

theorem loopWith_found (g : Int → Int → Bool) (n : Int) (fuel : Nat) (i : Int)
    (hg : g i n = true) (hi : 3 ≤ i) (hd : Int.tmod n i = 0) :
    loopWith g n (fuel + 1) i = ⟨.ret 0, [i]⟩ := by
  have hrem : remInt n i = .ret (Int.tmod n i) := by
    unfold remInt
    rw [if_neg (by omega), if_neg (by omega)]
  rw [loopWith]
  simp only [hg, hrem, hd, if_true]

theorem loopWith_stop (g : Int → Int → Bool) (n : Int) (fuel : Nat) (i : Int)
    (hg : g i n = false) : loopWith g n (fuel + 1) i = ⟨.ret 1, []⟩ := by
  rw [loopWith]
  simp only [hg]
  rfl

theorem guardExact_eq_leSqrt (n : Int) (h1 : 1 ≤ n) (hn : n ≤ INT_MAX) (i : Int) (hi : 0 ≤ i) :
    leSqrt i n = guardExact i n := by
  have h := leSqrt_iff i n hi h1 hn
  unfold guardExact
  by_cases hsq : i * i ≤ n
  · rw [h.2 hsq, decide_eq_true hsq]
  · have : leSqrt i n = false := by
      cases hb : leSqrt i n
      · rfl
      · exact absurd (h.1 hb) hsq
    rw [this, decide_eq_false hsq]

/-- The three ways through the routine, whatever its guard. -/
theorem isPrimeWith_cases (g : Int → Int → Bool) (n : Int) :
    (n < 3 ∧ isPrimeWith g n = isPrime n) ∨
    (3 ≤ n ∧ n % 2 = 0 ∧ isPrimeWith g n = isPrime n) ∨
    (3 ≤ n ∧ n % 2 = 1 ∧ isPrimeWith g n = loopWith g n loopFuel 3 ∧
      isPrime n = loop n loopFuel 3) := by
  by_cases h2 : n < 2
  · refine Or.inl ⟨by omega, ?_⟩
    unfold isPrime isPrimeFuel isPrimeWith
    rw [if_pos h2, if_pos h2]
  · by_cases h22 : n = 2
    · refine Or.inl ⟨by omega, ?_⟩
      unfold isPrime isPrimeFuel isPrimeWith
      rw [if_neg h2, if_neg h2, if_pos h22, if_pos h22]
    · by_cases he : n % 2 = 0
      · refine Or.inr (Or.inl ⟨by omega, he, ?_⟩)
        unfold isPrime
        rw [isPrimeFuel_even _ n (by omega) he]
        unfold isPrimeWith
        rw [if_neg h2, if_neg h22, remInt_two n (by omega)]
        simp only [he, if_true]
      · refine Or.inr (Or.inr ⟨by omega, by omega, ?_,
          isPrimeFuel_odd loopFuel n (by omega) (by omega)⟩)
        have ho : n % 2 = 1 := by omega
        unfold isPrimeWith
        rw [if_neg h2, if_neg h22, remInt_two n (by omega)]
        simp only [ho]
        rfl

/-! ## The wrapping guard -/

theorem wrap32_le_max (x : Int) : wrap32 x ≤ INT_MAX := by
  unfold wrap32 INT_MAX; omega

theorem wrap32_sq_small (i : Int) (h0 : 0 ≤ i) (h : i ≤ 46340) : wrap32 (i * i) = i * i := by
  have h1 : i * i ≤ 46340 * 46340 := Int.mul_le_mul h h h0 (by norm_num)
  have h2 : 0 ≤ i * i := Int.mul_nonneg h0 h0
  unfold wrap32; omega

theorem guardWrap_small (i n : Int) (h0 : 0 ≤ i) (h : i ≤ 46340) :
    guardWrap i n = guardExact i n := by
  unfold guardWrap guardExact
  rw [wrap32_sq_small i h0 h]

theorem guardWrap_max (i : Int) : guardWrap i INT_MAX = true := by
  unfold guardWrap
  exact decide_eq_true (wrap32_le_max _)

/-- With `n = INT_MAX` the wrapping guard never fails: the loop ends at a divisor of `n`,
at the latest at `i = n`. -/
theorem loopWrap_max : ∀ (fuel : Nat) (i : Int), 3 ≤ i → i ≤ INT_MAX → i % 2 = 1 →
    INT_MAX - i + 2 ≤ 2 * (fuel : Int) →
    (loopWith guardWrap INT_MAX fuel i).out = .ret 0 := by
  intro fuel
  induction fuel with
  | zero => intro i h3 hi _ hf; omega
  | succ fuel ih =>
    intro i h3 hi hodd hf
    by_cases hd : Int.tmod INT_MAX i = 0
    · rw [loopWith_found guardWrap INT_MAX fuel i (guardWrap_max i) h3 hd]
    · have hne : i ≠ INT_MAX := by
        intro hc
        rw [hc] at hd
        exact hd (by decide)
      have hi2 : i + 2 ≤ INT_MAX := by
        unfold INT_MAX at hi hne ⊢; omega
      rw [loopWith_step guardWrap INT_MAX fuel i (guardWrap_max i) h3 hi2, if_neg hd]
      exact ih (i + 2) (by omega) hi2 (by omega) (by push_cast at hf ⊢; omega)

theorem noOddDivisor_sound (n : Nat) : ∀ (k d : Nat), noOddDivisor n k d = true →
    ∀ j, j < k → n % (d + 2 * j) ≠ 0 := by
  intro k
  induction k with
  | zero => intro d _ j hj; omega
  | succ k ih =>
    intro d h j hj
    unfold noOddDivisor at h
    split at h
    · cases h
    · next hd =>
      cases j with
      | zero => simpa using hd
      | succ j =>
        have := ih (d + 2) h j (by omega)
        have e : d + 2 * (j + 1) = d + 2 + 2 * j := by ring
        rw [e]; exact this

theorem prime_int_max : IsPrimeNumber INT_MAX := by
  have hcert : noOddDivisor 2147483647 23169 3 = true := by decide!
  rw [odd_prime_iff INT_MAX (by decide) (by decide)]
  rintro ⟨d, h3, hodd, hsq, hdvd⟩
  have hle := le_46340_of_sq_le d INT_MAX (by omega) hsq le_rfl
  obtain ⟨j, hj⟩ : ∃ j : Nat, d = ((3 + 2 * j : Nat) : Int) := ⟨((d - 3) / 2).toNat, by omega⟩
  have hjlt : j < 23169 := by omega
  have hnd := noOddDivisor_sound 2147483647 23169 3 hcert j hjlt
  apply hnd
  have h1 : ((3 + 2 * j : Nat) : Int) ∣ ((2147483647 : Nat) : Int) := by
    rw [← hj]; exact hdvd
  exact Nat.mod_eq_zero_of_dvd (Int.ofNat_dvd.1 h1)

/-- An odd `int` below `INT_MAX` without odd divisor in `[3, 46339]` is at most
`2147483640`: the three odd numbers in between are multiples of `2699`, `3` and `5`. -/
theorem le_of_no_small_divisor (n : Int) (hodd : n % 2 = 1) (hn : n ≤ INT_MAX)
    (hne : n ≠ INT_MAX)
    (hno : ∀ d : Int, 3 ≤ d → d < 46341 → d % 2 = 1 → ¬ d ∣ n) : n ≤ 2147483640 := by
  unfold INT_MAX at hn hne
  by_contra hc
  have h3 := hno 3 (by norm_num) (by norm_num) (by norm_num)
  have h5 := hno 5 (by norm_num) (by norm_num) (by norm_num)
  have h2699 := hno 2699 (by norm_num) (by norm_num) (by norm_num)
  have hcases : n = 2147483641 ∨ n = 2147483643 ∨ n = 2147483645 := by omega
  rcases hcases with h | h | h
  · exact h2699 (by rw [h]; decide)
  · exact h3 (by rw [h]; decide)
  · exact h5 (by rw [h]; decide)

/-- A counter at which the wrapping guard fails for every `n ≤ 2147483640`. -/
theorem guardWrap_fails (n : Int) (hn : n ≤ 2147483640) : guardWrap 593968971 n = false := by
  unfold guardWrap
  apply decide_eq_false
  have : wrap32 (593968971 * 593968971) = 2147483641 := by decide
  rw [this]; omega

/-- The loop with the wrapping guard on an odd `n` other than `INT_MAX`: it ends with `0`
when an odd `d ≥ 3` with `d² ≤ n` divides `n` and with `1` otherwise, as the loop of
`isPrime` does. -/
theorem loopWrap_out (n : Int) (hn3 : 3 ≤ n) (hodd : n % 2 = 1) (hn : n ≤ INT_MAX)
    (hne : n ≠ INT_MAX) :
    ∀ (fuel : Nat) (i : Int), 3 ≤ i → i ≤ 593968971 → i % 2 = 1 →
      593968971 + 2 - i ≤ 2 * (fuel : Int) →
      (∀ d : Int, 3 ≤ d → d < i → d % 2 = 1 → ¬ d ∣ n) →
      (46341 ≤ i → 46339 * 46339 ≤ n) →
      ((loopWith guardWrap n fuel i).out = .ret 0 ∧
        ∃ d, 3 ≤ d ∧ (d - 3) % 2 = 0 ∧ d * d ≤ n ∧ d ∣ n) ∨
      ((loopWith guardWrap n fuel i).out = .ret 1 ∧
        ¬ ∃ d, 3 ≤ d ∧ (d - 3) % 2 = 0 ∧ d * d ≤ n ∧ d ∣ n) := by
  have hmax : n ≤ 2147483647 := hn
  intro fuel
  induction fuel with
  | zero => intro i h3 hi _ hf; omega
  | succ fuel ih =>
    intro i h3 hi hiodd hf hno hinv
    have hfuel : (593968971 : Int) + 2 - (i + 2) ≤ 2 * (fuel : Int) := by
      push_cast at hf ⊢; omega
    by_cases hsmall : i ≤ 46340
    · have hgw := guardWrap_small i n (by omega) hsmall
      by_cases hsq : i * i ≤ n
      · have hg : guardWrap i n = true := by
          rw [hgw]; exact decide_eq_true hsq
        by_cases hd : Int.tmod n i = 0
        · rw [loopWith_found guardWrap n fuel i hg h3 hd]
          exact Or.inl ⟨rfl, i, h3, by omega, hsq, Int.dvd_of_tmod_eq_zero hd⟩
        · rw [loopWith_step guardWrap n fuel i hg h3 (by unfold INT_MAX; omega), if_neg hd]
          have hnd : ¬ i ∣ n := fun hc => hd (Int.tmod_eq_zero_of_dvd hc)
          refine ih (i + 2) (by omega) (by omega) (by omega) hfuel ?_ ?_
          · intro d hd3 hdlt hdodd
            by_cases hdi : d = i
            · rw [hdi]; exact hnd
            · exact hno d hd3 (by omega) hdodd
          · intro h46
            have hi46 : i = 46339 := by omega
            rw [hi46] at hsq
            exact hsq
      · have hg : guardWrap i n = false := by
          rw [hgw]; exact decide_eq_false hsq
        rw [loopWith_stop guardWrap n fuel i hg]
        refine Or.inr ⟨rfl, ?_⟩
        rintro ⟨d, hd3, hdodd, hdsq, hdvd⟩
        by_cases hdi : d < i
        · exact hno d hd3 hdi (by omega) hdvd
        · have := sq_lt_of_le i d n (by omega) (by omega) (by omega)
          omega
    · have hN : (46339 : Int) * 46339 ≤ n := hinv (by omega)
      have hnone : ¬ ∃ d, 3 ≤ d ∧ (d - 3) % 2 = 0 ∧ d * d ≤ n ∧ d ∣ n := by
        rintro ⟨d, hd3, hdodd, hdsq, hdvd⟩
        have := le_46340_of_sq_le d n (by omega) hdsq hn
        exact hno d hd3 (by omega) (by omega) hdvd
      by_cases hg : guardWrap i n = true
      · have hle := le_of_no_small_divisor n hodd hn hne
          (fun d hd3 hdlt hdodd => hno d hd3 (by omega) hdodd)
        have hi0 : i ≠ 593968971 := by
          intro hc
          rw [hc, guardWrap_fails n hle] at hg
          exact Bool.noConfusion hg
        have hnd : ¬ i ∣ n := by
          rintro ⟨k, hk⟩
          have hk0 : 0 < k := by
            by_contra hc
            have : i * k ≤ 0 := Int.mul_nonpos_of_nonneg_of_nonpos (by omega) (by omega)
            omega
          have hkodd := odd_of_dvd_odd k n hodd ⟨i, by rw [hk, Int.mul_comm]⟩
          have hk1 : k ≠ 1 := by
            intro hc
            rw [hc, Int.mul_one] at hk
            omega
          have hklt : k < i := by
            by_contra hc
            have h1 : (46341 : Int) * 46341 ≤ i * k :=
              Int.mul_le_mul (by omega) (by omega) (by norm_num) (by omega)
            omega
          exact hno k (by omega) hklt hkodd ⟨i, by rw [hk, Int.mul_comm]⟩
        have hd : ¬ Int.tmod n i = 0 := fun hc => hnd (Int.dvd_of_tmod_eq_zero hc)
        rw [loopWith_step guardWrap n fuel i hg h3 (by unfold INT_MAX; omega), if_neg hd]
        refine ih (i + 2) (by omega) (by omega) (by omega) hfuel ?_ (fun _ => hN)
        intro d hd3 hdlt hdodd
        by_cases hdi : d = i
        · rw [hdi]; exact hnd
        · exact hno d hd3 (by omega) hdodd
      · have hg' : guardWrap i n = false := by
          cases hb : guardWrap i n
          · rfl
          · exact absurd hb hg
        rw [loopWith_stop guardWrap n fuel i hg']
        exact Or.inr ⟨rfl, hnone⟩

/-- The result of the routine with the wrapping guard is that of `isPrime` on every `int`
other than `INT_MAX`. -/
theorem isPrimeWrap_out (n : Int) (hn : n ≤ INT_MAX) (hne : n ≠ INT_MAX) :
    (isPrimeWrap n).out = (isPrime n).out := by
  unfold isPrimeWrap
  rcases isPrimeWith_cases guardWrap n with ⟨_, h⟩ | ⟨_, _, h⟩ | ⟨h3, hodd, h, hp⟩
  · rw [h]
  · rw [h]
  · rw [h, hp]
    have hw := loopWrap_out n h3 hodd hn hne loopFuel 3 le_rfl (by norm_num) (by norm_num)
      (by unfold loopFuel; norm_num) (fun d hd3 hdlt => by omega) (fun hc => by omega)
    have hl := loop_out n h3 hn loopFuel 3 le_rfl (by norm_num) loopFuel_enough
    rcases hw with ⟨ho, he⟩ | ⟨ho, he⟩ <;> rcases hl with ⟨ho', he'⟩ | ⟨ho', he'⟩
    · rw [ho, ho']
    · exact absurd he he'
    · exact absurd he' he
    · rw [ho, ho']

/-! ## The operations of a run -/

theorem loopOps_step (n : Int) (fuel : Nat) (i : Int) (hn : n ≤ INT_MAX) (hi : 3 ≤ i)
    (h : i * i ≤ n) :
    loopOps n (fuel + 1) i =
      if Int.tmod n i = 0 then [.rem n i]
      else .rem n i :: .add i 2 :: loopOps n fuel (i + 2) := by
  have hi0 : (0 : Int) ≤ i := by omega
  have h9 : (3 : Int) * 3 ≤ i * i := Int.mul_le_mul hi hi (by norm_num) hi0
  have hg : leSqrt i n = true := (leSqrt_iff i n hi0 (by omega) hn).2 h
  have hle := le_46340_of_sq_le i n hi0 h hn
  have hrem : remInt n i = .ret (Int.tmod n i) := by
    unfold remInt
    rw [if_neg (by omega), if_neg (by omega)]
  have hadd : addInt i 2 = .ret (i + 2) := by
    unfold addInt
    rw [if_pos]
    unfold InRange INT_MIN INT_MAX
    omega
  rw [loopOps]
  simp only [hg, hrem, hadd, if_true]

theorem loopOps_stop (n : Int) (fuel : Nat) (i : Int) (hn1 : 1 ≤ n) (hn : n ≤ INT_MAX)
    (hi : 0 ≤ i) (h : n < i * i) : loopOps n (fuel + 1) i = [] := by
  have hg : ¬ leSqrt i n = true := fun hc => by
    have := (leSqrt_iff i n hi hn1 hn).1 hc
    omega
  rw [loopOps]
  simp only [hg]
  rfl

/-- Every operation of the loop is the remainder by a tested divisor or the update of the
counter after one. -/
theorem loopOps_mem (n : Int) (hn3 : 3 ≤ n) (hn : n ≤ INT_MAX) :
    ∀ (fuel : Nat) (i : Int), 3 ≤ i → ∀ op, op ∈ loopOps n fuel i →
      ∃ d, d ∈ (loop n fuel i).tested ∧ (op = .rem n d ∨ op = .add d 2) := by
  intro fuel
  induction fuel with
  | zero => intro i _ op hop; simp [loopOps] at hop
  | succ fuel ih =>
    intro i h3 op hop
    by_cases hsq : i * i ≤ n
    · rw [loopOps_step n fuel i hn h3 hsq] at hop
      rw [loop_step n fuel i hn h3 hsq]
      by_cases hd : Int.tmod n i = 0
      · rw [if_pos hd] at hop ⊢
        rw [List.mem_singleton] at hop
        exact ⟨i, List.mem_singleton.2 rfl, Or.inl hop⟩
      · rw [if_neg hd] at hop ⊢
        rcases List.mem_cons.1 hop with h | hop
        · exact ⟨i, List.mem_cons_self _ _, Or.inl h⟩
        · rcases List.mem_cons.1 hop with h | hop
          · exact ⟨i, List.mem_cons_self _ _, Or.inr h⟩
          · obtain ⟨d, hd1, hd2⟩ := ih (i + 2) (by omega) op hop
            exact ⟨d, List.mem_cons_of_mem _ hd1, hd2⟩
    · rw [loopOps_stop n fuel i (by omega) hn (by omega) (by omega)] at hop
      simp at hop

/-- The remainder by every tested divisor is among the operations of the loop. -/
theorem loopOps_rem (n : Int) (hn3 : 3 ≤ n) (hn : n ≤ INT_MAX) :
    ∀ (fuel : Nat) (i : Int), 3 ≤ i → ∀ d, d ∈ (loop n fuel i).tested →
      Op.rem n d ∈ loopOps n fuel i := by
  intro fuel
  induction fuel with
  | zero => intro i _ d hd; simp [loop] at hd
  | succ fuel ih =>
    intro i h3 d hd
    by_cases hsq : i * i ≤ n
    · rw [loop_step n fuel i hn h3 hsq] at hd
      rw [loopOps_step n fuel i hn h3 hsq]
      by_cases hdiv : Int.tmod n i = 0
      · rw [if_pos hdiv] at hd ⊢
        rw [List.mem_singleton] at hd
        rw [hd]; exact List.mem_singleton.2 rfl
      · rw [if_neg hdiv] at hd ⊢
        rcases List.mem_cons.1 hd with h | hd
        · rw [h]; exact List.mem_cons_self _ _
        · exact List.mem_cons_of_mem _ (List.mem_cons_of_mem _ (ih (i + 2) (by omega) d hd))
    · rw [loop_stop n fuel i (by omega) hn (by omega) (by omega)] at hd
      simp at hd

/-- The divisors `isPrime` tests are odd numbers from `3` to `46339`. -/
theorem tested_bounds (n : Int) (hn3 : 3 ≤ n) (hn : n ≤ INT_MAX) (d : Int)
    (hd : d ∈ (loop n loopFuel 3).tested) : 3 ≤ d ∧ d ≤ 46339 ∧ d % 2 = 1 := by
  have h := (loop_tested n hn3 hn loopFuel 3 le_rfl (by norm_num) loopFuel_enough d).1 hd
  have hle := le_46340_of_sq_le d n (by omega) h.2.2.1 hn
  omega

/-- The operations of a call, along the three ways through `isPrime`. -/
theorem isPrimeOps_cases (n : Int) :
    (n < 3 ∧ isPrimeOps n = [] ∧ (isPrime n).tested = []) ∨
    (3 ≤ n ∧ n % 2 = 0 ∧ isPrimeOps n = [.rem n 2] ∧ (isPrime n).tested = []) ∨
    (3 ≤ n ∧ n % 2 = 1 ∧ isPrimeOps n = .rem n 2 :: loopOps n loopFuel 3 ∧
      isPrime n = loop n loopFuel 3) := by
  by_cases h2 : n < 2
  · refine Or.inl ⟨by omega, ?_, ?_⟩
    · unfold isPrimeOps; rw [if_pos h2]
    · unfold isPrime; rw [isPrimeFuel_lt_two _ n h2]
  · by_cases h22 : n = 2
    · refine Or.inl ⟨by omega, ?_, ?_⟩
      · unfold isPrimeOps; rw [if_neg h2, if_pos h22]
      · unfold isPrime isPrimeFuel; rw [if_neg h2, if_pos h22]
    · by_cases he : n % 2 = 0
      · refine Or.inr (Or.inl ⟨by omega, he, ?_, ?_⟩)
        · unfold isPrimeOps
          rw [if_neg h2, if_neg h22, remInt_two n (by omega)]
          simp only [he, if_true]
        · unfold isPrime; rw [isPrimeFuel_even _ n (by omega) he]
      · have ho : n % 2 = 1 := by omega
        refine Or.inr (Or.inr ⟨by omega, ho, ?_, isPrimeFuel_odd loopFuel n (by omega) ho⟩)
        unfold isPrimeOps
        rw [if_neg h2, if_neg h22, remInt_two n (by omega)]
        simp only [ho]
        rfl

/-! ## The claims on the loop bound and on the safety of the arithmetic -/

/-- C11: the square-root bound never excludes the boundary divisor: for every `int` `n ≥ 3`
and every `i` with `3 ≤ i ≤ 46341`, the guard `i <= sqrt(n)` as the code evaluates it in
`double` holds if and only if `i * i ≤ n` in exact arithmetic (so at the squares of `46339`
and `46340` and just below them), and `isPrime` has on every `int` the same run as the
routine whose guard is `i * i <= n` computed without overflow. -/
theorem sqrt_guard_exact (n : Int) (h : InRange n) :
    (3 ≤ n → ∀ i : Int, 3 ≤ i → i ≤ 46341 → (leSqrt i n = true ↔ i * i ≤ n)) ∧
    isPrime n = isPrimeExact n ∧
    leSqrt 46339 2147302921 = true ∧ leSqrt 46339 2147302920 = false ∧
    leSqrt 46340 2147395600 = true ∧ leSqrt 46340 2147395599 = false ∧
    leSqrt 46341 2147483647 = false := by
  refine ⟨fun h3 i hi _ => leSqrt_iff i n (by omega) (by omega) h.2, ?_,
    by decide, by decide, by decide, by decide, by decide⟩
  unfold isPrimeExact
  rcases isPrimeWith_cases guardExact n with ⟨_, hc⟩ | ⟨_, _, hc⟩ | ⟨h3, _, hc, hp⟩
  · exact hc.symm
  · exact hc.symm
  · rw [hc, hp, loop_eq_loopWith]
    exact loopWith_congr leSqrt guardExact n
      (fun i hi => guardExact_eq_leSqrt n (by omega) h.2 i (by omega)) loopFuel 3 le_rfl

theorem sqrt_guard_exact_witness :
    InRange 2147395600 ∧
    ((3 ≤ (2147395600 : Int) → ∀ i : Int, 3 ≤ i → i ≤ 46341 →
      (leSqrt i 2147395600 = true ↔ i * i ≤ 2147395600)) ∧
    isPrime 2147395600 = isPrimeExact 2147395600 ∧
    leSqrt 46339 2147302921 = true ∧ leSqrt 46339 2147302920 = false ∧
    leSqrt 46340 2147395600 = true ∧ leSqrt 46340 2147395599 = false ∧
    leSqrt 46341 2147483647 = false) :=
  ⟨by decide, sqrt_guard_exact 2147395600 (by decide)⟩

/-- C12, as stated, fails at `n = 2147483647`: there `i * i`, wrapped to 32 bits, is never
greater than `n`, the loop with the guard `i * i <= n` runs up to `i = n` and the routine
returns `0`, whereas `isPrime(2147483647)` returns `1`. -/
theorem isPrimeWrap_int_max :
    (isPrimeWrap 2147483647).out = .ret 0 ∧ (isPrime 2147483647).out = .ret 1 ∧
    (isPrimeWrap 2147483647).out ≠ (isPrime 2147483647).out := by
  have hw : (isPrimeWrap INT_MAX).out = .ret 0 := by
    unfold isPrimeWrap
    rcases isPrimeWith_cases guardWrap INT_MAX with ⟨hc, _⟩ | ⟨_, hc, _⟩ | ⟨_, _, hc, _⟩
    · exact absurd hc (by decide)
    · exact absurd hc (by decide)
    · rw [hc]
      exact loopWrap_max loopFuel 3 (by decide) (by decide) (by decide) (by decide)
  have hp : (isPrime INT_MAX).out = .ret 1 := by
    rcases isPrime_out INT_MAX le_rfl with ⟨ho, _⟩ | ⟨_, hnp⟩
    · exact ho
    · exact absurd prime_int_max hnp
  have e : (2147483647 : Int) = INT_MAX := rfl
  rw [e, hw, hp]
  exact ⟨rfl, rfl, by decide⟩

/-- C12, amended: for every `int` `n` other than `2147483647`, those from `46339 * 46339`
on included, the routine with the guard `i * i <= n`, the product wrapping in 32 bits,
returns the same result as `isPrime(n)`. -/
theorem isPrimeWrap_agrees (n : Int) (h : InRange n) (hne : n ≠ 2147483647) :
    (isPrimeWrap n).out = (isPrime n).out :=
  isPrimeWrap_out n h.2 hne

theorem isPrimeWrap_agrees_witness :
    InRange 2147483629 ∧ (2147483629 : Int) ≠ 2147483647 ∧
    (isPrimeWrap 2147483629).out = (isPrime 2147483629).out :=
  ⟨by decide, by decide, isPrimeWrap_agrees 2147483629 (by decide) (by decide)⟩

/-- C13: in every run of `isPrime` on an `int` the arithmetic is safe: each remainder
`n % i` of the loop has a divisor `i` with `3 ≤ i ≤ 46339`, `n % 2` is evaluated only for
`n ≥ 3`, each update `i += 2` gives at most `46341`, every operation has operands for which
it is defined, and the run ends with a result. -/
theorem isPrime_arithmetic_safe (n : Int) (h : InRange n) :
    (∀ a b, Op.rem a b ∈ isPrimeOps n →
      a = n ∧ 3 ≤ n ∧ (b = 2 ∨ (b ∈ (isPrime n).tested ∧ 3 ≤ b ∧ b ≤ 46339))) ∧
    (∀ d, d ∈ (isPrime n).tested → Op.rem n d ∈ isPrimeOps n) ∧
    (∀ a b, Op.add a b ∈ isPrimeOps n → b = 2 ∧ 3 ≤ a ∧ a + 2 ≤ 46341) ∧
    (∀ op, op ∈ isPrimeOps n → op.safe) ∧
    (∃ v, (isPrime n).out = .ret v) := by
  have hres : ∃ v, (isPrime n).out = .ret v := by
    rcases isPrime_out n h.2 with ⟨ho, _⟩ | ⟨ho, _⟩
    · exact ⟨1, ho⟩
    · exact ⟨0, ho⟩
  rcases isPrimeOps_cases n with ⟨_, hops, ht⟩ | ⟨h3, _, hops, ht⟩ | ⟨h3, _, hops, hp⟩
  · rw [hops, ht]
    exact ⟨fun a b hm => by simp at hm, fun d hm => by simp at hm,
      fun a b hm => by simp at hm, fun op hm => by simp at hm, hres⟩
  · rw [hops, ht]
    refine ⟨fun a b hm => ?_, fun d hm => by simp at hm, fun a b hm => by simp at hm,
      fun op hm => ?_, hres⟩
    · rw [List.mem_singleton] at hm
      injection hm with ha hb
      exact ⟨ha, h3, Or.inl hb⟩
    · rw [List.mem_singleton] at hm
      rw [hm]
      exact ⟨by norm_num, fun hc => absurd hc.2 (by norm_num)⟩
  · have hmem := loopOps_mem n h3 h.2 loopFuel 3 le_rfl
    have hb := tested_bounds n h3 h.2
    rw [hp] at hres
    rw [hops, hp]
    refine ⟨fun a b hm => ?_, fun d hm => ?_, fun a b hm => ?_, fun op hm => ?_, hres⟩
    · rcases List.mem_cons.1 hm with he | hm
      · injection he with ha hb2
        exact ⟨ha, h3, Or.inl hb2⟩
      · obtain ⟨d, hd, he | he⟩ := hmem _ hm
        · injection he with ha hb2
          have := hb d hd
          rw [hb2]
          exact ⟨ha, h3, Or.inr ⟨hd, this.1, this.2.1⟩⟩
        · cases he
    · exact List.mem_cons_of_mem _ (loopOps_rem n h3 h.2 loopFuel 3 le_rfl d hm)
    · rcases List.mem_cons.1 hm with he | hm
      · cases he
      · obtain ⟨d, hd, he | he⟩ := hmem _ hm
        · cases he
        · injection he with ha hb2
          have := hb d hd
          rw [ha]
          exact ⟨hb2, this.1, by omega⟩
    · rcases List.mem_cons.1 hm with he | hm
      · rw [he]
        exact ⟨by norm_num, fun hc => absurd hc.2 (by norm_num)⟩
      · obtain ⟨d, hd, he | he⟩ := hmem _ hm
        · have := hb d hd
          rw [he]
          exact ⟨by omega, fun hc => by omega⟩
        · have := hb d hd
          rw [he]
          show InRange (d + 2)
          unfold InRange INT_MIN INT_MAX
          omega

theorem isPrime_arithmetic_safe_witness :
    InRange 2147483647 ∧
    ((∀ a b, Op.rem a b ∈ isPrimeOps 2147483647 →
      a = 2147483647 ∧ (3 : Int) ≤ 2147483647 ∧
        (b = 2 ∨ (b ∈ (isPrime 2147483647).tested ∧ 3 ≤ b ∧ b ≤ 46339))) ∧
    (∀ d, d ∈ (isPrime 2147483647).tested → Op.rem 2147483647 d ∈ isPrimeOps 2147483647) ∧
    (∀ a b, Op.add a b ∈ isPrimeOps 2147483647 → b = 2 ∧ 3 ≤ a ∧ a + 2 ≤ 46341) ∧
    (∀ op, op ∈ isPrimeOps 2147483647 → op.safe) ∧
    (∃ v, (isPrime 2147483647).out = .ret v)) :=
  ⟨by decide, isPrime_arithmetic_safe 2147483647 (by decide)⟩

end Text2
